import Mathlib

/-!
Shallow embedding of the WhatsApp assistant bot (`src/app.ts`) and proofs
about its chunking pipeline and its per-user queue/lock subsystem.

Strings are modelled as `List Char`.  The JavaScript regular expressions of
the source are embedded as executable scanners with the same matching
semantics (lazy `.*?`, greedy `\s+`, lookbehind `(?<!\d)`, global flag).
-/

/-- JavaScript's `\s` character class, restricted to its ASCII members plus
the no-break space (the only members that can realistically appear here). -/
def jsWS (c : Char) : Bool :=
  c = ' ' || c = '\t' || c = '\n' || c = '\r' || c = '\x0b' || c = '\x0c' || c = ' '

/-- JavaScript line terminators (`.` in a JS regex matches anything else). -/
def isLineTerm (c : Char) : Bool :=
  c = '\n' || c = '\r'

/-- `String.prototype.trim`: drop whitespace from both ends. -/
def trimChars (l : List Char) : List Char :=
  ((l.dropWhile jsWS).reverse.dropWhile jsWS).reverse

/-- First element is whitespace. -/
def headWS : List Char → Bool
  | [] => false
  | c :: _ => jsWS c

/-- Prepend a character to the first piece of a split-in-progress. -/
def consHead (c : Char) : List (List Char) → List (List Char)
  | [] => [[c]]
  | h :: t => (c :: h) :: t

/-- Scanner for the remainder of the text-path pattern `【.*?】[ ] ` once the
opening bracket `【` has been seen (line 31 of `app.ts`): lazily expand `.*?`
until a closing bracket `】` followed by two literal spaces comes next;
return the suffix after the whole match, or `none` if no match exists. -/
def matchTextMark : List Char → Option (List Char)
  | [] => none
  | c :: rest =>
    if c = '】' ∧ rest.take 2 = [' ', ' '] then some (rest.drop 2)
    else if isLineTerm c then none
    else matchTextMark rest

/-- Scanner for the remainder of the voice-path pattern `【.*?】` once the
opening bracket has been seen (lines 101 and 103 of `app.ts`): lazy `.*?`
stops at the first closing bracket. -/
def matchVoiceMark : List Char → Option (List Char)
  | [] => none
  | c :: rest =>
    if c = '】' then some rest
    else if isLineTerm c then none
    else matchVoiceMark rest

/-- `chunk.replace(/【.*?】[ ] /g, "")` (line 31 of `app.ts`): scan left to
right; at each `【` try to complete the pattern, deleting the match and
continuing after it, otherwise keep the character. -/
def replaceTextMarks : List Char → List Char
  | [] => []
  | c :: rest =>
    if c = '【' then
      match h : matchTextMark rest with
      | some rest' => replaceTextMarks rest'
      | none => c :: replaceTextMarks rest
    else c :: replaceTextMarks rest
termination_by l => l.length
decreasing_by
  all_goals simp only [List.length_cons]
  · have hlen : ∀ (l r : List Char), matchTextMark l = some r → r.length < l.length := by
      intro l
      induction l with
      | nil => intro r h2; simp [matchTextMark] at h2
      | cons c rest2 ih =>
        intro r h2
        rw [matchTextMark] at h2
        by_cases hc1 : c = '】' ∧ rest2.take 2 = [' ', ' ']
        · rw [if_pos hc1] at h2
          cases h2
          simp only [List.length_cons, List.length_drop]
          omega
        · rw [if_neg hc1] at h2
          by_cases hc2 : isLineTerm c = true
          · rw [if_pos hc2] at h2; cases h2
          · rw [if_neg hc2] at h2
            have := ih r h2
            simp only [List.length_cons]
            omega
    exact Nat.lt_succ_of_le (le_of_lt (hlen _ _ (by assumption)))
  · omega
  · omega

/-- `s.replace(/【.*?】/g, "")` (lines 101 and 103 of `app.ts`). -/
def replaceVoiceMarks : List Char → List Char
  | [] => []
  | c :: rest =>
    if c = '【' then
      match h : matchVoiceMark rest with
      | some rest' => replaceVoiceMarks rest'
      | none => c :: replaceVoiceMarks rest
    else c :: replaceVoiceMarks rest
termination_by l => l.length
decreasing_by
  all_goals simp only [List.length_cons]
  · have hlen : ∀ (l r : List Char), matchVoiceMark l = some r → r.length < l.length := by
      intro l
      induction l with
      | nil => intro r h2; simp [matchVoiceMark] at h2
      | cons c rest2 ih =>
        intro r h2
        rw [matchVoiceMark] at h2
        by_cases hc1 : c = '】'
        · rw [if_pos hc1] at h2
          cases h2
          simp
        · rw [if_neg hc1] at h2
          by_cases hc2 : isLineTerm c = true
          · rw [if_pos hc2] at h2; cases h2
          · rw [if_neg hc2] at h2
            have := ih r h2
            simp only [List.length_cons]
            omega
    exact Nat.lt_succ_of_le (le_of_lt (hlen _ _ (by assumption)))
  · omega
  · omega

/-- `response.split(/\n\n+/)` (line 29 of `app.ts`): a separator is two
newlines followed greedily by any further newlines. -/
def splitParas : List Char → List (List Char)
  | [] => [[]]
  | c :: rest =>
    if c = '\n' ∧ rest.take 1 = ['\n'] then
      [] :: splitParas (rest.dropWhile (fun x => x = '\n'))
    else
      consHead c (splitParas rest)
termination_by l => l.length
decreasing_by
  all_goals simp only [List.length_cons]
  · exact Nat.lt_succ_of_le (List.dropWhile_suffix _).sublist.length_le
  · omega

/-- `response.split(/(?<!\d)\.\s+/g)` (line 99 of `app.ts`), instrumented to
also return the matched separators.  `pd` records whether the character just
before the current scan position is a digit (the `(?<!\d)` lookbehind; at the
start of the string there is no such character, so `pd = false`).  A separator
is a period followed greedily by whitespace.  The first component is exactly
what the JavaScript `split` returns. -/
def voiceSplitRun (pd : Bool) : List Char → List (List Char) × List (List Char)
  | [] => ([[]], [])
  | c :: rest =>
    if c = '.' ∧ pd = false ∧ headWS rest = true then
      let res := voiceSplitRun false (rest.dropWhile jsWS)
      ([] :: res.1, ('.' :: rest.takeWhile jsWS) :: res.2)
    else
      let res := voiceSplitRun c.isDigit rest
      (consHead c res.1, res.2)
termination_by l => l.length
decreasing_by
  all_goals simp only [List.length_cons]
  · exact Nat.lt_succ_of_le (List.dropWhile_suffix _).sublist.length_le
  · omega

/-- The chunks of the voice path's split (line 99 of `app.ts`). -/
def voiceSplit (l : List Char) : List (List Char) :=
  (voiceSplitRun false l).1

/-- `chunk.trim().replace(/【.*?】[ ] /g, "")` (line 31 of `app.ts`). -/
def textClean (chunk : List Char) : List Char :=
  replaceTextMarks (trimChars chunk)

/-- The chunks `processUserMessage` delivers via `flowDynamic`
(lines 29–33 of `app.ts`). -/
def textDelivered (response : List Char) : List (List Char) :=
  (splitParas response).map textClean

/-- `chunk.trim().replace(/【.*?】/g, "")` (line 101 of `app.ts`). -/
def voiceClean (chunk : List Char) : List Char :=
  replaceVoiceMarks (trimChars chunk)

/-- The chunks the voice-note flow delivers via `flowDynamic`
(lines 99–102 of `app.ts`). -/
def voiceDelivered (response : List Char) : List (List Char) :=
  (voiceSplit response).map voiceClean

/-- Reassemble split pieces and the separators consumed between them. -/
def glue : List (List Char) → List (List Char) → List Char
  | [], _ => []
  | c :: _, [] => c
  | c :: cs, s :: ss => c ++ s ++ glue cs ss

/-- Digit-ness of the character standing immediately before the position that
follows the segment `l`, when the character before `l` has digit-ness `pd`. -/
def lastDigit (pd : Bool) (l : List Char) : Bool :=
  match l.getLast? with
  | some c => c.isDigit
  | none => pd

/-- Modelled from the spec sentence on the audio delimiter policy: the segment
contains no unsplit sentence boundary, i.e. no period that is followed by
whitespace and not preceded by a digit (`pd` gives the digit-ness of the
character just before the segment). -/
def NoBnd : Bool → List Char → Prop
  | _, [] => True
  | pd, c :: t => ¬(pd = false ∧ c = '.' ∧ headWS t = true) ∧ NoBnd c.isDigit t

/-- Modelled from the spec sentence on the audio delimiter policy: the pieces
and separators form a split of the original string exactly at sentence
boundaries — every separator is a period followed by (greedy) whitespace whose
period is not preceded by a digit, and no piece retains such a boundary. -/
def GoodSplit : Bool → List (List Char) → List (List Char) → Prop
  | pd, [c], [] => NoBnd pd c
  | pd, c :: cs, s :: ss =>
      NoBnd pd c ∧ (∃ ws, s = '.' :: ws ∧ ws ≠ [] ∧ ∀ x ∈ ws, jsWS x = true) ∧
      lastDigit pd c = false ∧ GoodSplit false cs ss
  | _, _, _ => False

/-- One external effect of a run of the voice-note flow. -/
inductive VEv
  | saveFile (p : List Char)
  | transcribe (p : List Char)
  | typing
  | ask (text : List Char)
  | sendChunk (c : List Char)
  | speechWrite (path : List Char) (content : List Char)
  | recording
  | unlinkCall (p : List Char)
  | sendMedia (path : List Char)
deriving DecidableEq

/-- `path.resolve("./assets/audio_bot/speech.mp3")` (line 11 of `app.ts`):
a single module-level constant, independent of user, task and response. -/
def speechFile : List Char := "./assets/audio_bot/speech.mp3".toList

/-- The ordered external effects of one non-failing run of `voiceNoteFlow`
(lines 89–115 of `app.ts`): save the note, transcribe it, signal typing, ask
the model, deliver the cleaned chunks, write the synthesized speech to
`speechFile`, signal recording, invoke deletion of the saved note, send the
media attachment (`addAnswer`), and invoke deletion of the speech file
(the final `addAction`).  The parameters are the saved-file path and the two
external call results. -/
def voiceNoteTrace (localPath transcriptText response : List Char) : List VEv :=
  [VEv.saveFile localPath, VEv.transcribe localPath, VEv.typing, VEv.ask transcriptText]
    ++ (voiceDelivered response).map VEv.sendChunk
    ++ [VEv.speechWrite speechFile (replaceVoiceMarks response), VEv.recording,
        VEv.unlinkCall localPath, VEv.sendMedia speechFile, VEv.unlinkCall speechFile]

/-- The paths written by speech synthesis in a trace. -/
def writePaths (tr : List VEv) : List (List Char) :=
  tr.filterMap fun e => match e with | VEv.speechWrite p _ => some p | _ => none

/-- The paths sent as media attachments in a trace. -/
def mediaPaths (tr : List VEv) : List (List Char) :=
  tr.filterMap fun e => match e with | VEv.sendMedia p => some p | _ => none

/-- Ghost events recorded while the queue subsystem runs.  `enq`, `start` and
`done` track one queued welcome-flow task (task identifiers are allocation
order); `errLog` records the `console.error` of the drain loop's catch
(line 52 of `app.ts`); `vstart`/`vdone` delimit one voice-note flow run,
which bypasses the queue entirely.  Traces list the most recent event
first. -/
inductive Ev
  | enq (k : Nat) (m : Nat)
  | start (k : Nat) (m : Nat)
  | done (k : Nat) (m : Nat)
  | errLog (k : Nat) (m : Nat)
  | vstart (k : Nat)
  | vdone (k : Nat)
deriving DecidableEq

/-- One active asynchronous activity: a drain loop of `handleQueue` currently
processing task `cur` for user `k` with `steps` suspension points still ahead
inside `processUserMessage`, or one voice-note flow run with `steps`
suspension points still ahead. -/
inductive Thr
  | drain (k : Nat) (cur : Nat) (steps : Nat)
  | voice (k : Nat) (steps : Nat)
deriving DecidableEq

/-- The shared mutable state of `app.ts` together with the active activities
and a ghost trace.  `queues` and `locks` model the module-level maps
`userQueues` and `userLocks` (lines 17–18; `Map.get` of an absent key is
`none`); user keys and task identifiers are opaque, modelled as `Nat`. -/
structure Sys where
  queues : Nat → Option (List Nat)
  locks : Nat → Option Bool
  threads : List Thr
  nextId : Nat
  trace : List Ev

/-- `Map.prototype.set`. -/
def mset {α : Type} (f : Nat → Option α) (k : Nat) (v : α) : Nat → Option α :=
  fun q => if q = k then some v else f q

/-- `Map.prototype.delete`. -/
def mdel {α : Type} (f : Nat → Option α) (k : Nat) : Nat → Option α :=
  fun q => if q = k then none else f q

/-- `handleQueue(userId)` (lines 39–48 of `app.ts`) from its invocation to the
first suspension point: read the queue (line 40), return unchanged if the lock
is truthy (lines 42–44); otherwise, if the queue is empty, the `while` loop is
skipped and both map entries are deleted (lines 58–59); otherwise set the
lock, shift the head task and begin processing it — `steps` is the number of
suspension points that processing will take.  (A call with no queue entry
would throw before mutating anything; it is modelled as a no-op and is
unreachable from the actual call site.) -/
def handleQueueEnter (s : Sys) (k : Nat) (steps : Nat) : Sys :=
  if s.locks k = some true then s
  else
    match s.queues k with
    | none => s
    | some [] => { s with locks := mdel s.locks k, queues := mdel s.queues k }
    | some (m :: rest) =>
      { s with queues := mset s.queues k rest,
               locks := mset s.locks k true,
               threads := Thr.drain k m steps :: s.threads,
               trace := Ev.start k m :: s.trace }

/-- One inbound text message for user `k` (`welcomeFlow`, lines 117–132 of
`app.ts`), run atomically up to the first suspension point: create the queue
entry if absent, push a fresh task id, and — if the lock is not set and the
pushed task is alone in the queue (line 129) — enter `handleQueue`. -/
def submitText (s : Sys) (k : Nat) (steps : Nat) : Sys :=
  let m := s.nextId
  let q1 := (match s.queues k with | none => [] | some q => q) ++ [m]
  let s1 : Sys :=
    { s with queues := mset s.queues k q1, nextId := m + 1, trace := Ev.enq k m :: s.trace }
  if ¬s.locks k = some true ∧ q1.length = 1 then handleQueueEnter s1 k steps else s1

/-- The end of one iteration of the drain loop (lines 49–59 of `app.ts`),
entered when the current task's processing resolves (`failed = false`) or
rejects (`failed = true`, in which case the catch of line 52 logs the error):
the `finally` releases the lock (line 54), the `while` condition is
re-checked, and either the next task is shifted and its processing begins
(with `steps'` suspension points ahead) or the loop exits and both map
entries are deleted (lines 58–59).  All of this is one synchronous segment;
the finishing drain thread has already been removed from `threads` by the
caller.  `done` marks the end of the iteration that handled the task. -/
def drainContinue (s : Sys) (k cur : Nat) (failed : Bool) (steps' : Nat) : Sys :=
  let tr0 := if failed then Ev.errLog k cur :: s.trace else s.trace
  match s.queues k with
  | none => { s with trace := tr0 }
  | some [] =>
    { s with locks := mdel s.locks k, queues := mdel s.queues k,
             trace := Ev.done k cur :: tr0 }
  | some (m :: rest) =>
    { s with queues := mset s.queues k rest,
             locks := mset s.locks k true,
             threads := Thr.drain k m steps' :: s.threads,
             trace := Ev.start k m :: Ev.done k cur :: tr0 }

/-- The interleaving semantics of the bot: one transition per maximal
synchronous segment (JavaScript runs each such segment without interruption;
the suspension points are the `await`s, at which any other pending activity
may run). -/
inductive Step : Sys → Sys → Prop
  | text (s : Sys) (k steps : Nat) : Step s (submitText s k steps)
  | yield (s : Sys) (pre post : List Thr) (k cur n : Nat)
      (h : s.threads = pre ++ Thr.drain k cur (n + 1) :: post) :
      Step s { s with threads := pre ++ Thr.drain k cur n :: post }
  | finish (s : Sys) (pre post : List Thr) (k cur steps' : Nat)
      (h : s.threads = pre ++ Thr.drain k cur 0 :: post) :
      Step s (drainContinue { s with threads := pre ++ post } k cur false steps')
  | errFinish (s : Sys) (pre post : List Thr) (k cur n steps' : Nat)
      (h : s.threads = pre ++ Thr.drain k cur n :: post) :
      Step s (drainContinue { s with threads := pre ++ post } k cur true steps')
  | varrive (s : Sys) (k steps : Nat) :
      Step s { s with threads := Thr.voice k steps :: s.threads,
                      trace := Ev.vstart k :: s.trace }
  | vyield (s : Sys) (pre post : List Thr) (k n : Nat)
      (h : s.threads = pre ++ Thr.voice k (n + 1) :: post) :
      Step s { s with threads := pre ++ Thr.voice k n :: post }
  | vfinish (s : Sys) (pre post : List Thr) (k : Nat)
      (h : s.threads = pre ++ Thr.voice k 0 :: post) :
      Step s { s with threads := pre ++ post, trace := Ev.vdone k :: s.trace }

/-- The state at process start (lines 17–18 of `app.ts`): empty maps, no
activity. -/
def init : Sys :=
  { queues := fun _ => none, locks := fun _ => none, threads := [], nextId := 0, trace := [] }

/-- States the running bot can be in. -/
def Reachable (s : Sys) : Prop :=
  Relation.ReflTransGen Step init s

/-- The queued tasks of user `k` currently inside their processing step (each
drain thread is processing exactly one task). -/
def drainsFor (k : Nat) (ts : List Thr) : List (Nat × Nat) :=
  ts.filterMap fun t => match t with
    | Thr.drain q c n => if q = k then some (c, n) else none
    | _ => none

/-- The voice-note runs of user `k` currently inside their processing step. -/
def voicesFor (k : Nat) (ts : List Thr) : List Nat :=
  ts.filterMap fun t => match t with
    | Thr.voice q n => if q = k then some n else none
    | _ => none

/-- Number of messages of user `k` — queued text tasks and voice notes alike —
currently inside their processing step. -/
def inProcCount (k : Nat) (s : Sys) : Nat :=
  (drainsFor k s.threads).length + (voicesFor k s.threads).length

/-- Queue events of user `k`. -/
def isQ (k : Nat) : Ev → Bool
  | Ev.enq q _ => q = k
  | Ev.start q _ => q = k
  | Ev.done q _ => q = k
  | _ => false

/-- A trace restricted to the queue events of user `k`. -/
def projK (k : Nat) (tr : List Ev) : List Ev :=
  tr.filter (isQ k)

/-- Ids enqueued for user `k`, most recent first. -/
def eids (k : Nat) (tr : List Ev) : List Nat :=
  tr.filterMap fun e => match e with
    | Ev.enq q i => if q = k then some i else none
    | _ => none

/-- Ids whose processing started, for user `k`, most recent first. -/
def sids (k : Nat) (tr : List Ev) : List Nat :=
  tr.filterMap fun e => match e with
    | Ev.start q i => if q = k then some i else none
    | _ => none

/-- Ids whose processing finished, for user `k`, most recent first. -/
def dids (k : Nat) (tr : List Ev) : List Nat :=
  tr.filterMap fun e => match e with
    | Ev.done q i => if q = k then some i else none
    | _ => none

/-- All task ids ever enqueued, for any user. -/
def allIds (tr : List Ev) : List Nat :=
  tr.filterMap fun e => match e with
    | Ev.enq _ i => some i
    | _ => none

/-- The sequential histories one user's queue can produce, together with the
pending backlog (oldest first) and the in-flight task.  Every constructor
appends the ghost events of one synchronous segment in front of the trace. -/
inductive KRun (k : Nat) : List Ev → List Nat → Option Nat → Prop
  | nil : KRun k [] [] none
  | enqStart (m : Nat) (tr : List Ev) (h : KRun k tr [] none) (hm : m ∉ eids k tr) :
      KRun k (Ev.start k m :: Ev.enq k m :: tr) [] (some m)
  | enqBusy (m : Nat) (tr : List Ev) (p : List Nat) (c : Nat)
      (h : KRun k tr p (some c)) (hm : m ∉ eids k tr) :
      KRun k (Ev.enq k m :: tr) (p ++ [m]) (some c)
  | finNext (m : Nat) (tr : List Ev) (p : List Nat) (c : Nat)
      (h : KRun k tr (m :: p) (some c)) :
      KRun k (Ev.start k m :: Ev.done k c :: tr) p (some m)
  | finEmpty (tr : List Ev) (c : Nat) (h : KRun k tr [] (some c)) :
      KRun k (Ev.done k c :: tr) [] none

/-- The inductive invariant tying maps, threads and ghost trace together for
one user: at most one drain loop ever runs per user; when none runs the
registry holds no entry for the user; when one runs, the lock is set, the
queue entry exists and the projected trace is a legal sequential history. -/
def KInv (k : Nat) (s : Sys) : Prop :=
  (drainsFor k s.threads = [] → s.locks k = none ∧ s.queues k = none ∧
    KRun k (projK k s.trace) [] none) ∧
  (∀ c n, drainsFor k s.threads = [(c, n)] →
    s.locks k = some true ∧ ∃ p, s.queues k = some p ∧ KRun k (projK k s.trace) p (some c)) ∧
  (drainsFor k s.threads).length ≤ 1

/-- The global inductive invariant: fresh ids are really fresh, and every
user's view is consistent. -/
def SysInv (s : Sys) : Prop :=
  (∀ i ∈ allIds s.trace, i < s.nextId) ∧ ∀ k, KInv k s

/-- The state after one iteration of the drain loop for user `k` ends with
outcome `failed` (the loop's thread itself removed), see `drainContinue`. -/
def finishResult (s : Sys) (pre post : List Thr) (k cur : Nat) (failed : Bool)
    (st : Nat) : Sys :=
  drainContinue { s with threads := pre ++ post } k cur failed st

/-- A concrete run: one text message of user `0` arrives at the idle bot and
its processing begins (5 suspension points ahead). -/
def sysA : Sys := submitText init 0 5

/-- On top of `sysA`, a voice note of the same user `0` arrives while the text
task is still being processed. -/
def sysB : Sys :=
  { sysA with threads := Thr.voice 0 3 :: sysA.threads, trace := Ev.vstart 0 :: sysA.trace }

/-- On top of `sysA`, a second text message of user `0` arrives while the
first is still being processed: it is queued. -/
def sysC : Sys := submitText sysA 0 7

/-- On top of `sysC`, the processing of task `0` fails; the drain loop logs,
releases, and starts task `1`. -/
def sysD : Sys := drainContinue { sysC with threads := [] } 0 0 true 4

/-- Sample path a saved voice note gets (`provider.saveFile`). -/
def lpSample : List Char := "./assets/audio/in.oga".toList

example : splitParas ("A.\n\nB.\n\nC.".toList) = ["A.".toList, "B.".toList, "C.".toList] := by
  simp [splitParas, consHead]

example : textDelivered ("A.\n\nB.\n\nC.".toList) = ["A.".toList, "B.".toList, "C.".toList] := by
  simp [textDelivered, textClean, splitParas, consHead, trimChars, replaceTextMarks,
    matchTextMark, jsWS, isLineTerm]

example : voiceSplit ("Hi. The value is 3.14. Bye".toList) =
    ["Hi".toList, "The value is 3.14. Bye".toList] := by
  simp [voiceSplit, voiceSplitRun, consHead, headWS, jsWS]

example : voiceDelivered ("Hi. ".toList) = ["Hi".toList, []] := by
  simp [voiceDelivered, voiceClean, voiceSplit, voiceSplitRun, consHead, headWS, jsWS,
    trimChars, replaceVoiceMarks, matchVoiceMark, isLineTerm]

example : textClean ("Hello【foo】".toList) = "Hello【foo】".toList := by
  simp [textClean, trimChars, replaceTextMarks, matchTextMark, jsWS, isLineTerm]

example : textClean ("Hello【foo】  tail".toList) = "Hellotail".toList := by
  simp [textClean, trimChars, replaceTextMarks, matchTextMark, jsWS, isLineTerm]

example : voiceClean ("Hello【foo】".toList) = "Hello".toList := by
  simp [voiceClean, trimChars, replaceVoiceMarks, matchVoiceMark, jsWS, isLineTerm]

theorem lastDigit_cons (pd : Bool) (c : Char) (h : List Char) :
    lastDigit pd (c :: h) = lastDigit c.isDigit h := by
  cases h with
  | nil => simp [lastDigit]
  | cons x t =>
    cases hg : (x :: t).getLast? with
    | none => simp at hg
    | some y => simp [lastDigit, List.getLast?_cons_cons, hg]

theorem goodSplit_noBnd {pd : Bool} {h : List Char} {t ss : List (List Char)}
    (hg : GoodSplit pd (h :: t) ss) : NoBnd pd h := by
  cases t with
  | nil =>
    cases ss with
    | nil => exact hg
    | cons s ss' => exact hg.1
  | cons h2 t2 =>
    cases ss with
    | nil => exact hg.elim
    | cons s ss' => exact hg.1

theorem voiceSplitRun_ne_nil (pd : Bool) (l : List Char) : (voiceSplitRun pd l).1 ≠ [] := by
  cases l with
  | nil => simp [voiceSplitRun]
  | cons c rest =>
    rw [voiceSplitRun]
    by_cases h : (c = '.' ∧ pd = false ∧ headWS rest = true)
    · rw [if_pos h]; simp
    · rw [if_neg h]
      cases h2 : (voiceSplitRun c.isDigit rest).1 <;> simp [consHead, h2]

theorem voiceSplitRun_head_eq (pd : Bool) (l : List Char) (x : Char) (h' : List Char)
    (t : List (List Char)) (h : (voiceSplitRun pd l).1 = (x :: h') :: t) : ∃ r, l = x :: r := by
  cases l with
  | nil => simp [voiceSplitRun] at h
  | cons c rest =>
    rw [voiceSplitRun] at h
    by_cases hc : (c = '.' ∧ pd = false ∧ headWS rest = true)
    · rw [if_pos hc] at h
      simp at h
    · rw [if_neg hc] at h
      simp only at h
      cases h2 : (voiceSplitRun c.isDigit rest).1 with
      | nil => rw [h2] at h; simp [consHead] at h; exact ⟨rest, by rw [h.1.1]⟩
      | cons h0 t0 => rw [h2] at h; simp [consHead] at h; exact ⟨rest, by rw [h.1.1]⟩

theorem voiceSplitRun_headWS (pd : Bool) (l : List Char) (h0 : List Char)
    (t : List (List Char)) (h : (voiceSplitRun pd l).1 = h0 :: t) (hws : headWS h0 = true) :
    headWS l = true := by
  cases h0 with
  | nil => simp [headWS] at hws
  | cons x h' =>
    obtain ⟨r, hr⟩ := voiceSplitRun_head_eq pd l x h' t h
    subst hr
    simpa [headWS] using hws

theorem voiceSplitRun_spec (pd : Bool) (l : List Char) :
    GoodSplit pd (voiceSplitRun pd l).1 (voiceSplitRun pd l).2 ∧
    glue (voiceSplitRun pd l).1 (voiceSplitRun pd l).2 = l := by
  induction pd, l using voiceSplitRun.induct with
  | case1 pd => simp [voiceSplitRun, GoodSplit, NoBnd, glue]
  | case2 pd c rest hcond ih =>
    obtain ⟨hc, hpd, hws⟩ := hcond
    rw [voiceSplitRun, if_pos ⟨hc, hpd, hws⟩]
    simp only
    constructor
    · simp only [GoodSplit]
      refine ⟨trivial, ⟨rest.takeWhile jsWS, rfl, ?_, ?_⟩, by simp [lastDigit, hpd], ih.1⟩
      · cases rest with
        | nil => simp [headWS] at hws
        | cons r rr =>
          have hr : jsWS r = true := by simpa [headWS] using hws
          simp [List.takeWhile_cons, hr]
      · intro x hx
        exact List.mem_takeWhile_imp hx
    · simp only [glue]
      rw [ih.2]
      simp [hc, List.takeWhile_append_dropWhile]
  | case3 pd c rest hcond ih =>
    rw [voiceSplitRun, if_neg hcond]
    simp only
    obtain ⟨hGS, hglue⟩ := ih
    cases h1 : (voiceSplitRun c.isDigit rest).1 with
    | nil => exact absurd h1 (voiceSplitRun_ne_nil _ _)
    | cons h0 t0 =>
      rw [h1] at hGS hglue
      have hNoBndHead : ¬(pd = false ∧ c = '.' ∧ headWS h0 = true) := by
        rintro ⟨hpd, hc, hws⟩
        exact hcond ⟨hc, hpd, voiceSplitRun_headWS _ _ _ _ h1 hws⟩
      cases h2 : (voiceSplitRun c.isDigit rest).2 with
      | nil =>
        rw [h2] at hGS hglue
        cases t0 with
        | nil =>
          refine ⟨?_, ?_⟩
          · simp only [consHead, GoodSplit, NoBnd]
            exact ⟨hNoBndHead, hGS⟩
          · simp only [consHead, glue] at hglue ⊢
            rw [hglue]
        | cons h2' t2' => exact hGS.elim
      | cons s ss =>
        rw [h2] at hGS hglue
        simp only [GoodSplit] at hGS
        obtain ⟨hNB, hshape, hld, hrest⟩ := hGS
        refine ⟨?_, ?_⟩
        · simp only [consHead, GoodSplit, NoBnd]
          exact ⟨⟨hNoBndHead, hNB⟩, hshape, by rw [lastDigit_cons]; exact hld, hrest⟩
        · simp only [consHead, glue] at hglue ⊢
          rw [← hglue]
          simp

theorem mem_dropWhile_of_not {p : Char → Bool} {c : Char} {l : List Char}
    (hc : c ∈ l) (hp : p c = false) : c ∈ l.dropWhile p := by
  induction l with
  | nil => cases hc
  | cons x t ih =>
    by_cases hx : p x = true
    · rw [List.dropWhile_cons, if_pos hx]
      rcases List.mem_cons.mp hc with h | h
      · subst h; rw [hp] at hx; cases hx
      · exact ih h
    · rw [List.dropWhile_cons, if_neg hx]
      exact hc

theorem mem_trimChars {c : Char} {l : List Char} (hc : c ∈ l) (hp : jsWS c = false) :
    c ∈ trimChars l := by
  unfold trimChars
  rw [List.mem_reverse]
  exact mem_dropWhile_of_not (List.mem_reverse.mpr (mem_dropWhile_of_not hc hp)) hp

theorem mem_of_mem_trimChars {c : Char} {l : List Char} (hc : c ∈ trimChars l) : c ∈ l := by
  unfold trimChars at hc
  rw [List.mem_reverse] at hc
  have h1 := (List.dropWhile_suffix jsWS).sublist.mem hc
  rw [List.mem_reverse] at h1
  exact (List.dropWhile_suffix jsWS).sublist.mem h1

theorem replaceTextMarks_no_open : ∀ (l : List Char), '【' ∉ l → replaceTextMarks l = l := by
  intro l
  induction l using replaceTextMarks.induct with
  | case1 => intro _; simp [replaceTextMarks]
  | case2 rest rest' h ih =>
    intro hmem
    exact absurd (List.mem_cons_self _ _) hmem
  | case3 rest h ih =>
    intro hmem
    exact absurd (List.mem_cons_self _ _) hmem
  | case4 c rest hc ih =>
    intro hmem
    rw [replaceTextMarks, if_neg hc, ih (fun hm => hmem (List.mem_cons_of_mem c hm))]

theorem replaceVoiceMarks_no_open : ∀ (l : List Char), '【' ∉ l → replaceVoiceMarks l = l := by
  intro l
  induction l using replaceVoiceMarks.induct with
  | case1 => intro _; simp [replaceVoiceMarks]
  | case2 rest rest' h ih =>
    intro hmem
    exact absurd (List.mem_cons_self _ _) hmem
  | case3 rest h ih =>
    intro hmem
    exact absurd (List.mem_cons_self _ _) hmem
  | case4 c rest hc ih =>
    intro hmem
    rw [replaceVoiceMarks, if_neg hc, ih (fun hm => hmem (List.mem_cons_of_mem c hm))]

theorem mset_same {α : Type} (f : Nat → Option α) (k : Nat) (v : α) : mset f k v k = some v := by
  simp [mset]

theorem mset_other {α : Type} (f : Nat → Option α) (k v q) (h : q ≠ k) : mset f k v q = f q := by
  simp [mset, h]

theorem mdel_same {α : Type} (f : Nat → Option α) (k : Nat) : mdel f k k = none := by
  simp [mdel]

theorem mdel_other {α : Type} (f : Nat → Option α) (k q) (h : q ≠ k) : mdel f k q = f q := by
  simp [mdel, h]

theorem drainsFor_append (k : Nat) (a b : List Thr) :
    drainsFor k (a ++ b) = drainsFor k a ++ drainsFor k b := by
  simp [drainsFor, List.filterMap_append]

theorem drainsFor_cons_drain_same (k c n : Nat) (ts : List Thr) :
    drainsFor k (Thr.drain k c n :: ts) = (c, n) :: drainsFor k ts := by
  simp [drainsFor]

theorem drainsFor_cons_drain_other (k q c n : Nat) (ts : List Thr) (h : q ≠ k) :
    drainsFor k (Thr.drain q c n :: ts) = drainsFor k ts := by
  simp [drainsFor, h]

theorem drainsFor_cons_voice (k q n : Nat) (ts : List Thr) :
    drainsFor k (Thr.voice q n :: ts) = drainsFor k ts := by
  simp [drainsFor]

theorem voicesFor_cons_drain (k q c n : Nat) (ts : List Thr) :
    voicesFor k (Thr.drain q c n :: ts) = voicesFor k ts := by
  simp [voicesFor]

theorem voicesFor_cons_voice_same (k n : Nat) (ts : List Thr) :
    voicesFor k (Thr.voice k n :: ts) = n :: voicesFor k ts := by
  simp [voicesFor]

theorem voicesFor_append (k : Nat) (a b : List Thr) :
    voicesFor k (a ++ b) = voicesFor k a ++ voicesFor k b := by
  simp [voicesFor, List.filterMap_append]

theorem projK_cons_enq_same (k m : Nat) (tr : List Ev) :
    projK k (Ev.enq k m :: tr) = Ev.enq k m :: projK k tr := by
  simp [projK, isQ, List.filter_cons]

theorem projK_cons_start_same (k m : Nat) (tr : List Ev) :
    projK k (Ev.start k m :: tr) = Ev.start k m :: projK k tr := by
  simp [projK, isQ, List.filter_cons]

theorem projK_cons_done_same (k m : Nat) (tr : List Ev) :
    projK k (Ev.done k m :: tr) = Ev.done k m :: projK k tr := by
  simp [projK, isQ, List.filter_cons]

theorem projK_cons_not (k : Nat) (e : Ev) (tr : List Ev) (h : isQ k e = false) :
    projK k (e :: tr) = projK k tr := by
  simp [projK, List.filter_cons, h]

theorem isQ_errLog (k q m : Nat) : isQ k (Ev.errLog q m) = false := rfl

theorem isQ_vstart (k q : Nat) : isQ k (Ev.vstart q) = false := rfl

theorem isQ_vdone (k q : Nat) : isQ k (Ev.vdone q) = false := rfl

theorem isQ_other_key (k q m : Nat) (h : q ≠ k) :
    isQ k (Ev.enq q m) = false ∧ isQ k (Ev.start q m) = false ∧ isQ k (Ev.done q m) = false := by
  simp [isQ, h]

theorem allIds_cons_enq (q m : Nat) (tr : List Ev) :
    allIds (Ev.enq q m :: tr) = m :: allIds tr := by
  simp [allIds]

theorem allIds_cons_start (q m : Nat) (tr : List Ev) :
    allIds (Ev.start q m :: tr) = allIds tr := by
  simp [allIds]

theorem allIds_cons_done (q m : Nat) (tr : List Ev) :
    allIds (Ev.done q m :: tr) = allIds tr := by
  simp [allIds]

theorem allIds_cons_errLog (q m : Nat) (tr : List Ev) :
    allIds (Ev.errLog q m :: tr) = allIds tr := by
  simp [allIds]

theorem allIds_cons_vstart (q : Nat) (tr : List Ev) :
    allIds (Ev.vstart q :: tr) = allIds tr := by
  simp [allIds]

theorem allIds_cons_vdone (q : Nat) (tr : List Ev) :
    allIds (Ev.vdone q :: tr) = allIds tr := by
  simp [allIds]

theorem eids_cons_enq_same (k m : Nat) (tr : List Ev) :
    eids k (Ev.enq k m :: tr) = m :: eids k tr := by
  simp [eids]

theorem eids_cons_other (k : Nat) (e : Ev) (tr : List Ev)
    (h : ∀ m, e ≠ Ev.enq k m) : eids k (e :: tr) = eids k tr := by
  rcases e with ⟨q, j⟩ | ⟨q, j⟩ | ⟨q, j⟩ | ⟨q, j⟩ | q | q
  · have hq : q ≠ k := fun hh => h j (by rw [hh])
    simp [eids, List.filterMap_cons, hq]
  · simp [eids, List.filterMap_cons]
  · simp [eids, List.filterMap_cons]
  · simp [eids, List.filterMap_cons]
  · simp [eids, List.filterMap_cons]
  · simp [eids, List.filterMap_cons]

theorem sids_cons_start_same (k m : Nat) (tr : List Ev) :
    sids k (Ev.start k m :: tr) = m :: sids k tr := by
  simp [sids]

theorem sids_cons_other (k : Nat) (e : Ev) (tr : List Ev)
    (h : ∀ m, e ≠ Ev.start k m) : sids k (e :: tr) = sids k tr := by
  rcases e with ⟨q, j⟩ | ⟨q, j⟩ | ⟨q, j⟩ | ⟨q, j⟩ | q | q
  · simp [sids, List.filterMap_cons]
  · have hq : q ≠ k := fun hh => h j (by rw [hh])
    simp [sids, List.filterMap_cons, hq]
  · simp [sids, List.filterMap_cons]
  · simp [sids, List.filterMap_cons]
  · simp [sids, List.filterMap_cons]
  · simp [sids, List.filterMap_cons]

theorem dids_cons_done_same (k m : Nat) (tr : List Ev) :
    dids k (Ev.done k m :: tr) = m :: dids k tr := by
  simp [dids]

theorem dids_cons_other (k : Nat) (e : Ev) (tr : List Ev)
    (h : ∀ m, e ≠ Ev.done k m) : dids k (e :: tr) = dids k tr := by
  rcases e with ⟨q, j⟩ | ⟨q, j⟩ | ⟨q, j⟩ | ⟨q, j⟩ | q | q
  · simp [dids, List.filterMap_cons]
  · simp [dids, List.filterMap_cons]
  · have hq : q ≠ k := fun hh => h j (by rw [hh])
    simp [dids, List.filterMap_cons, hq]
  · simp [dids, List.filterMap_cons]
  · simp [dids, List.filterMap_cons]
  · simp [dids, List.filterMap_cons]

theorem eids_subset_allIds (k i : Nat) (tr : List Ev) (h : i ∈ eids k tr) : i ∈ allIds tr := by
  unfold eids at h
  rcases List.mem_filterMap.mp h with ⟨e, he, hfe⟩
  refine List.mem_filterMap.mpr ⟨e, he, ?_⟩
  rcases e with ⟨q, j⟩ | ⟨q, j⟩ | ⟨q, j⟩ | ⟨q, j⟩ | q | q
  · simp at hfe ⊢
    exact hfe.2
  · simp at hfe
  · simp at hfe
  · simp at hfe
  · simp at hfe
  · simp at hfe

theorem eids_projK (k : Nat) (tr : List Ev) : eids k (projK k tr) = eids k tr := by
  induction tr with
  | nil => rfl
  | cons e tr ih =>
    rcases e with ⟨q, j⟩ | ⟨q, j⟩ | ⟨q, j⟩ | ⟨q, j⟩ | q | q
    · by_cases hq : q = k
      · subst hq
        rw [projK_cons_enq_same, eids_cons_enq_same, eids_cons_enq_same, ih]
      · rw [projK_cons_not _ _ _ (by simp [isQ, hq]),
          eids_cons_other _ _ _ (by intro m hm; cases hm; exact hq rfl), ih]
    · by_cases hq : q = k
      · subst hq
        rw [projK_cons_start_same, eids_cons_other _ _ _ (by intro m hm; cases hm),
          eids_cons_other _ _ _ (by intro m hm; cases hm), ih]
      · rw [projK_cons_not _ _ _ (by simp [isQ, hq]),
          eids_cons_other _ _ _ (by intro m hm; cases hm), ih]
    · by_cases hq : q = k
      · subst hq
        rw [projK_cons_done_same, eids_cons_other _ _ _ (by intro m hm; cases hm),
          eids_cons_other _ _ _ (by intro m hm; cases hm), ih]
      · rw [projK_cons_not _ _ _ (by simp [isQ, hq]),
          eids_cons_other _ _ _ (by intro m hm; cases hm), ih]
    · rw [projK_cons_not _ _ _ (isQ_errLog k q j),
        eids_cons_other _ _ _ (by intro m hm; cases hm), ih]
    · rw [projK_cons_not _ _ _ (isQ_vstart k q),
        eids_cons_other _ _ _ (by intro m hm; cases hm), ih]
    · rw [projK_cons_not _ _ _ (isQ_vdone k q),
        eids_cons_other _ _ _ (by intro m hm; cases hm), ih]

theorem KInv_ext {k : Nat} {s s' : Sys}
    (h1 : drainsFor k s'.threads = drainsFor k s.threads)
    (h2 : s'.locks k = s.locks k) (h3 : s'.queues k = s.queues k)
    (h4 : projK k s'.trace = projK k s.trace) (h : KInv k s) : KInv k s' := by
  unfold KInv at h ⊢
  rw [h1, h2, h3, h4]
  exact h

theorem drains_cases {k : Nat} {ts : List Thr} (h : (drainsFor k ts).length ≤ 1) :
    drainsFor k ts = [] ∨ ∃ c n, drainsFor k ts = [(c, n)] := by
  cases hd : drainsFor k ts with
  | nil => exact Or.inl rfl
  | cons x xs =>
    cases xs with
    | nil => exact Or.inr ⟨x.1, x.2, by simp⟩
    | cons y ys => rw [hd] at h; simp at h

theorem mset_mset {α : Type} (f : Nat → Option α) (k : Nat) (v w : α) :
    mset (mset f k v) k w = mset f k w := by
  funext q
  by_cases h : q = k <;> simp [mset, h]

theorem submitText_busy {s : Sys} {k : Nat} {p : List Nat} (steps : Nat)
    (hl : s.locks k = some true) (hq : s.queues k = some p) :
    submitText s k steps =
      { s with queues := mset s.queues k (p ++ [s.nextId]), nextId := s.nextId + 1,
               trace := Ev.enq k s.nextId :: s.trace } := by
  unfold submitText
  rw [hq]
  simp only [hl]
  rw [if_neg (by simp)]

theorem submitText_idle {s : Sys} {k : Nat} (steps : Nat)
    (hl : s.locks k ≠ some true) (hq : s.queues k = none) :
    submitText s k steps =
      { s with queues := mset s.queues k [],
               locks := mset s.locks k true,
               threads := Thr.drain k s.nextId steps :: s.threads,
               nextId := s.nextId + 1,
               trace := Ev.start k s.nextId :: Ev.enq k s.nextId :: s.trace } := by
  unfold submitText
  rw [hq]
  rw [if_pos ⟨hl, rfl⟩]
  unfold handleQueueEnter
  simp only [mset_same, List.nil_append, mset_mset]
  rw [if_neg hl]

theorem drainContinue_empty {s : Sys} {k : Nat} (cur : Nat) (failed : Bool) (st : Nat)
    (hq : s.queues k = some []) :
    drainContinue s k cur failed st =
      { s with locks := mdel s.locks k, queues := mdel s.queues k,
               trace := Ev.done k cur ::
                 (if failed then Ev.errLog k cur :: s.trace else s.trace) } := by
  unfold drainContinue
  rw [hq]

theorem drainContinue_next {s : Sys} {k : Nat} {m : Nat} {rest : List Nat}
    (cur : Nat) (failed : Bool) (st : Nat) (hq : s.queues k = some (m :: rest)) :
    drainContinue s k cur failed st =
      { s with queues := mset s.queues k rest,
               locks := mset s.locks k true,
               threads := Thr.drain k m st :: s.threads,
               trace := Ev.start k m :: Ev.done k cur ::
                 (if failed then Ev.errLog k cur :: s.trace else s.trace) } := by
  unfold drainContinue
  rw [hq]

theorem init_inv : SysInv init := by
  constructor
  · intro i hi
    simp [init, allIds] at hi
  · intro k
    refine ⟨fun _ => ⟨rfl, rfl, ?_⟩, fun c n h => ?_, by simp [init, drainsFor]⟩
    · exact KRun.nil
    · simp [init, drainsFor] at h

theorem isQ_false_of_ne (k' k m : Nat) (hk : ¬k' = k) :
    isQ k' (Ev.enq k m) = false ∧ isQ k' (Ev.start k m) = false ∧
    isQ k' (Ev.done k m) = false := by
  refine ⟨?_, ?_, ?_⟩ <;> simp [isQ] <;> intro h <;> exact absurd h.symm hk

theorem fresh_not_mem_eids {s : Sys} (hids : ∀ i ∈ allIds s.trace, i < s.nextId) (k : Nat) :
    s.nextId ∉ eids k (projK k s.trace) := by
  rw [eids_projK]
  intro hmem
  exact absurd (hids _ (eids_subset_allIds _ _ _ hmem)) (lt_irrefl _)

theorem submitText_inv {s : Sys} (hs : SysInv s) (k steps : Nat) :
    SysInv (submitText s k steps) := by
  obtain ⟨hids, hkinv⟩ := hs
  rcases drains_cases (hkinv k).2.2 with hd | ⟨c, n, hd⟩
  · obtain ⟨hlock, hqueue, hrun⟩ := (hkinv k).1 hd
    rw [submitText_idle steps (by rw [hlock]; simp) hqueue]
    refine ⟨?_, ?_⟩
    · dsimp only
      intro i hi
      simp only [allIds_cons_start, allIds_cons_enq] at hi
      rcases List.mem_cons.mp hi with h | h
      · omega
      · have := hids i h
        omega
    · intro k'
      by_cases hk : k' = k
      · subst hk
        refine ⟨?_, ?_, ?_⟩
        · intro h
          simp only [drainsFor_cons_drain_same, hd] at h
          exact absurd h (List.cons_ne_nil _ _)
        · intro c' n' h
          simp only [drainsFor_cons_drain_same, hd] at h
          obtain ⟨h1, h2⟩ := Prod.mk.injEq .. ▸ (List.cons.injEq .. ▸ h).1
          refine ⟨mset_same .., [], mset_same .., ?_⟩
          rw [projK_cons_start_same, projK_cons_enq_same, ← h1]
          exact KRun.enqStart _ _ hrun (fresh_not_mem_eids hids k')
        · simp only [drainsFor_cons_drain_same, hd, List.length_cons, List.length_nil]
          omega
      · refine KInv_ext ?_ ?_ ?_ ?_ (hkinv k')
        · exact drainsFor_cons_drain_other _ _ _ _ _ (fun h => hk h.symm)
        · exact mset_other _ _ _ _ hk
        · exact mset_other _ _ _ _ hk
        · rw [projK_cons_not _ _ _ (isQ_false_of_ne k' k _ hk).2.1,
            projK_cons_not _ _ _ (isQ_false_of_ne k' k _ hk).1]
  · obtain ⟨hlock, p, hqueue, hrun⟩ := (hkinv k).2.1 c n hd
    rw [submitText_busy steps hlock hqueue]
    refine ⟨?_, ?_⟩
    · dsimp only
      intro i hi
      simp only [allIds_cons_enq] at hi
      rcases List.mem_cons.mp hi with h | h
      · omega
      · have := hids i h
        omega
    · intro k'
      by_cases hk : k' = k
      · subst hk
        refine ⟨?_, ?_, ?_⟩
        · intro h
          simp only [hd] at h
          exact absurd h (List.cons_ne_nil _ _)
        · intro c' n' h
          simp only [hd] at h
          obtain ⟨h1, h2⟩ := Prod.mk.injEq .. ▸ (List.cons.injEq .. ▸ h).1
          refine ⟨hlock, p ++ [s.nextId], mset_same .., ?_⟩
          rw [projK_cons_enq_same, ← h1]
          exact KRun.enqBusy _ _ _ _ hrun (fresh_not_mem_eids hids k')
        · simp only [hd, List.length_cons, List.length_nil]
          omega
      · refine KInv_ext ?_ ?_ ?_ ?_ (hkinv k')
        · rfl
        · rfl
        · exact mset_other _ _ _ _ hk
        · exact projK_cons_not _ _ _ (isQ_false_of_ne k' k _ hk).1

theorem drains_decomp {k₀ cur n : Nat} {pre post ts : List Thr}
    (hts : ts = pre ++ Thr.drain k₀ cur n :: post)
    (hlen : (drainsFor k₀ ts).length ≤ 1) :
    drainsFor k₀ ts = [(cur, n)] ∧ drainsFor k₀ pre = [] ∧ drainsFor k₀ post = [] := by
  subst hts
  rw [drainsFor_append, drainsFor_cons_drain_same] at hlen ⊢
  rw [List.length_append, List.length_cons] at hlen
  have hp : (drainsFor k₀ pre).length = 0 := by omega
  have hq : (drainsFor k₀ post).length = 0 := by omega
  rw [List.length_eq_zero] at hp hq
  rw [hp, hq]
  simp

theorem drainsFor_middle_drain_other (k q c n : Nat) (pre post : List Thr) (h : q ≠ k) :
    drainsFor k (pre ++ Thr.drain q c n :: post) = drainsFor k (pre ++ post) := by
  rw [drainsFor_append, drainsFor_append, drainsFor_cons_drain_other _ _ _ _ _ h]

theorem drainsFor_middle_voice (k q nn : Nat) (pre post : List Thr) :
    drainsFor k (pre ++ Thr.voice q nn :: post) = drainsFor k (pre ++ post) := by
  rw [drainsFor_append, drainsFor_append, drainsFor_cons_voice]

theorem allIds_if_errLog (failed : Bool) (k cur : Nat) (tr : List Ev) :
    allIds (if failed then Ev.errLog k cur :: tr else tr) = allIds tr := by
  cases failed <;> simp [allIds_cons_errLog]

theorem projK_if_errLog (k' : Nat) (failed : Bool) (k cur : Nat) (tr : List Ev) :
    projK k' (if failed then Ev.errLog k cur :: tr else tr) = projK k' tr := by
  cases failed <;> simp [projK_cons_not _ _ _ (isQ_errLog k' k cur)]

theorem yield_inv {s : Sys} (hs : SysInv s) {pre post : List Thr} {k cur n : Nat}
    (hth : s.threads = pre ++ Thr.drain k cur (n + 1) :: post) :
    SysInv { s with threads := pre ++ Thr.drain k cur n :: post } := by
  obtain ⟨hids, hkinv⟩ := hs
  obtain ⟨hall, hpre, hpost⟩ := drains_decomp hth (hkinv k).2.2
  obtain ⟨hlock, p, hqueue, hrun⟩ := (hkinv k).2.1 cur (n + 1) hall
  refine ⟨hids, ?_⟩
  intro k'
  by_cases hk : k' = k
  · subst hk
    refine ⟨?_, ?_, ?_⟩
    · intro h
      simp only [drainsFor_append, drainsFor_cons_drain_same, hpre, hpost,
        List.nil_append] at h
      exact absurd h (List.cons_ne_nil _ _)
    · intro c' n' h
      simp only [drainsFor_append, drainsFor_cons_drain_same, hpre, hpost,
        List.nil_append] at h
      injection h with h1 _
      injection h1 with hc hn
      subst hc
      exact ⟨hlock, p, hqueue, hrun⟩
    · dsimp only
      simp only [drainsFor_append, drainsFor_cons_drain_same, hpre, hpost, List.nil_append,
        List.length_cons, List.length_nil]
      omega
  · refine KInv_ext ?_ ?_ ?_ ?_ (hkinv k')
    · dsimp only
      rw [hth, drainsFor_middle_drain_other _ _ _ _ _ _ (fun h => hk h.symm),
        drainsFor_middle_drain_other _ _ _ _ _ _ (fun h => hk h.symm)]
    · rfl
    · rfl
    · rfl

theorem drainFinish_inv {s : Sys} (hs : SysInv s) {pre post : List Thr} {k cur n : Nat}
    (failed : Bool) (st : Nat)
    (hth : s.threads = pre ++ Thr.drain k cur n :: post) :
    SysInv (drainContinue { s with threads := pre ++ post } k cur failed st) := by
  obtain ⟨hids, hkinv⟩ := hs
  obtain ⟨hall, hpre, hpost⟩ := drains_decomp hth (hkinv k).2.2
  obtain ⟨hlock, p, hqueue, hrun⟩ := (hkinv k).2.1 cur n hall
  cases p with
  | nil =>
    have hq2 : ({ s with threads := pre ++ post } : Sys).queues k = some [] := hqueue
    rw [drainContinue_empty cur failed st hq2]
    refine ⟨?_, ?_⟩
    · dsimp only
      intro i hi
      rw [allIds_cons_done, allIds_if_errLog] at hi
      exact hids i hi
    · intro k'
      by_cases hk : k' = k
      · subst hk
        refine ⟨?_, ?_, ?_⟩
        · intro _
          refine ⟨mdel_same .., mdel_same .., ?_⟩
          dsimp only
          rw [projK_cons_done_same, projK_if_errLog]
          exact KRun.finEmpty _ _ hrun
        · intro c' n' h
          dsimp only at h
          rw [drainsFor_append, hpre, hpost] at h
          exact absurd h.symm (List.cons_ne_nil _ _)
        · dsimp only
          rw [drainsFor_append, hpre, hpost]
          simp
      · refine KInv_ext ?_ ?_ ?_ ?_ (hkinv k')
        · dsimp only
          rw [hth, drainsFor_middle_drain_other _ _ _ _ _ _ (fun h => hk h.symm)]
        · exact mdel_other _ _ _ hk
        · exact mdel_other _ _ _ hk
        · dsimp only
          rw [projK_cons_not _ _ _ (isQ_false_of_ne k' k _ hk).2.2, projK_if_errLog]
  | cons m restp =>
    have hq2 : ({ s with threads := pre ++ post } : Sys).queues k = some (m :: restp) :=
      hqueue
    rw [drainContinue_next cur failed st hq2]
    refine ⟨?_, ?_⟩
    · dsimp only
      intro i hi
      rw [allIds_cons_start, allIds_cons_done, allIds_if_errLog] at hi
      exact hids i hi
    · intro k'
      by_cases hk : k' = k
      · subst hk
        refine ⟨?_, ?_, ?_⟩
        · intro h
          dsimp only at h
          simp only [drainsFor_cons_drain_same, drainsFor_append, hpre, hpost,
            List.nil_append] at h
          exact absurd h (List.cons_ne_nil _ _)
        · intro c' n' h
          dsimp only at h
          simp only [drainsFor_cons_drain_same, drainsFor_append, hpre, hpost,
            List.nil_append] at h
          injection h with h1 _
          injection h1 with hc hn
          subst hc
          refine ⟨mset_same .., restp, mset_same .., ?_⟩
          dsimp only
          rw [projK_cons_start_same, projK_cons_done_same, projK_if_errLog]
          exact KRun.finNext _ _ _ _ hrun
        · dsimp only
          simp only [drainsFor_cons_drain_same, drainsFor_append, hpre, hpost,
            List.nil_append, List.length_cons, List.length_nil]
          omega
      · refine KInv_ext ?_ ?_ ?_ ?_ (hkinv k')
        · dsimp only
          rw [hth]
          rw [drainsFor_cons_drain_other _ _ _ _ _ (fun h => hk h.symm),
            drainsFor_middle_drain_other _ _ _ _ _ _ (fun h => hk h.symm)]
        · exact mset_other _ _ _ _ hk
        · exact mset_other _ _ _ _ hk
        · dsimp only
          rw [projK_cons_not _ _ _ (isQ_false_of_ne k' k _ hk).2.1,
            projK_cons_not _ _ _ (isQ_false_of_ne k' k _ hk).2.2, projK_if_errLog]

theorem varrive_inv {s : Sys} (hs : SysInv s) (k steps : Nat) :
    SysInv { s with threads := Thr.voice k steps :: s.threads,
                    trace := Ev.vstart k :: s.trace } := by
  refine ⟨?_, ?_⟩
  · dsimp only
    intro i hi
    rw [allIds_cons_vstart] at hi
    exact hs.1 i hi
  · intro k'
    refine KInv_ext ?_ ?_ ?_ ?_ (hs.2 k')
    · exact drainsFor_cons_voice _ _ _ _
    · rfl
    · rfl
    · exact projK_cons_not _ _ _ (isQ_vstart k' k)

theorem vyield_inv {s : Sys} (hs : SysInv s) {pre post : List Thr} {k n : Nat}
    (hth : s.threads = pre ++ Thr.voice k (n + 1) :: post) :
    SysInv { s with threads := pre ++ Thr.voice k n :: post } := by
  refine ⟨hs.1, ?_⟩
  intro k'
  refine KInv_ext ?_ ?_ ?_ ?_ (hs.2 k')
  · dsimp only
    rw [hth, drainsFor_middle_voice, drainsFor_middle_voice]
  · rfl
  · rfl
  · rfl

theorem vfinish_inv {s : Sys} (hs : SysInv s) {pre post : List Thr} {k : Nat}
    (hth : s.threads = pre ++ Thr.voice k 0 :: post) :
    SysInv { s with threads := pre ++ post, trace := Ev.vdone k :: s.trace } := by
  refine ⟨?_, ?_⟩
  · dsimp only
    intro i hi
    rw [allIds_cons_vdone] at hi
    exact hs.1 i hi
  · intro k'
    refine KInv_ext ?_ ?_ ?_ ?_ (hs.2 k')
    · dsimp only
      rw [hth, drainsFor_middle_voice]
    · rfl
    · rfl
    · exact projK_cons_not _ _ _ (isQ_vdone k' k)

theorem step_inv {s s' : Sys} (hs : SysInv s) (hstep : Step s s') : SysInv s' := by
  cases hstep with
  | text k steps => exact submitText_inv hs k steps
  | yield pre post k cur n h => exact yield_inv hs h
  | finish pre post k cur steps' h => exact drainFinish_inv hs false steps' h
  | errFinish pre post k cur n steps' h => exact drainFinish_inv hs true steps' h
  | varrive k steps => exact varrive_inv hs k steps
  | vyield pre post k n h => exact vyield_inv hs h
  | vfinish pre post k h => exact vfinish_inv hs h

theorem reachable_inv {s : Sys} (h : Reachable s) : SysInv s := by
  induction h with
  | refl => exact init_inv
  | tail hsteps hstep ih => exact step_inv ih hstep

theorem subl_cons_inv {α : Type} {x y : α} {l t : List α}
    (h : List.Sublist (x :: l) (y :: t)) :
    (x = y ∧ List.Sublist l t) ∨ List.Sublist (x :: l) t := by
  cases h with
  | cons _ h => exact Or.inr h
  | cons₂ _ h => exact Or.inl ⟨rfl, h⟩

theorem enq_mem_iff (k b : Nat) (tr : List Ev) : Ev.enq k b ∈ tr ↔ b ∈ eids k tr := by
  constructor
  · intro h
    exact List.mem_filterMap.mpr ⟨_, h, by simp⟩
  · intro h
    rcases List.mem_filterMap.mp h with ⟨e, he, hfe⟩
    rcases e with ⟨q, j⟩ | ⟨q, j⟩ | ⟨q, j⟩ | ⟨q, j⟩ | q | q <;> simp at hfe
    obtain ⟨h1, h2⟩ := hfe
    subst h1
    subst h2
    exact he

theorem start_mem_iff (k b : Nat) (tr : List Ev) : Ev.start k b ∈ tr ↔ b ∈ sids k tr := by
  constructor
  · intro h
    exact List.mem_filterMap.mpr ⟨_, h, by simp⟩
  · intro h
    rcases List.mem_filterMap.mp h with ⟨e, he, hfe⟩
    rcases e with ⟨q, j⟩ | ⟨q, j⟩ | ⟨q, j⟩ | ⟨q, j⟩ | q | q <;> simp at hfe
    obtain ⟨h1, h2⟩ := hfe
    subst h1
    subst h2
    exact he

theorem done_mem_iff (k b : Nat) (tr : List Ev) : Ev.done k b ∈ tr ↔ b ∈ dids k tr := by
  constructor
  · intro h
    exact List.mem_filterMap.mpr ⟨_, h, by simp⟩
  · intro h
    rcases List.mem_filterMap.mp h with ⟨e, he, hfe⟩
    rcases e with ⟨q, j⟩ | ⟨q, j⟩ | ⟨q, j⟩ | ⟨q, j⟩ | q | q <;> simp at hfe
    obtain ⟨h1, h2⟩ := hfe
    subst h1
    subst h2
    exact he

theorem eids_pair_sublist {k a b : Nat} {tr : List Ev}
    (h : List.Sublist [Ev.enq k b, Ev.enq k a] tr) : List.Sublist [b, a] (eids k tr) := by
  have h2 := List.Sublist.filterMap h (f := fun e => match e with
    | Ev.enq q i => if q = k then some i else none
    | _ => none)
  simpa [eids] using h2

theorem krun_struct {k : Nat} {tr : List Ev} {p : List Nat} {c : Option Nat}
    (hrun : KRun k tr p c) :
    eids k tr = p.reverse ++ c.toList ++ dids k tr ∧ sids k tr = c.toList ++ dids k tr := by
  induction hrun with
  | nil => simp [eids, sids, dids]
  | enqStart m tr h hm ih =>
    rw [eids_cons_other _ _ _ (by intro x hx; cases hx), eids_cons_enq_same,
      sids_cons_start_same, sids_cons_other _ _ _ (by intro x hx; cases hx),
      dids_cons_other _ _ _ (by intro x hx; cases hx),
      dids_cons_other _ _ _ (by intro x hx; cases hx)]
    obtain ⟨h1, h2⟩ := ih
    simp at h1 h2
    simp [h1, h2]
  | enqBusy m tr p c h hm ih =>
    rw [eids_cons_enq_same, sids_cons_other _ _ _ (by intro x hx; cases hx),
      dids_cons_other _ _ _ (by intro x hx; cases hx)]
    obtain ⟨h1, h2⟩ := ih
    simp [h1, h2]
  | finNext m tr p c h ih =>
    rw [eids_cons_other _ _ _ (by intro x hx; cases hx),
      eids_cons_other _ _ _ (by intro x hx; cases hx),
      sids_cons_start_same, sids_cons_other _ _ _ (by intro x hx; cases hx),
      dids_cons_other _ _ _ (by intro x hx; cases hx), dids_cons_done_same]
    obtain ⟨h1, h2⟩ := ih
    simp at h1 h2
    simp [h1, h2]
  | finEmpty tr c h ih =>
    rw [eids_cons_other _ _ _ (by intro x hx; cases hx),
      sids_cons_other _ _ _ (by intro x hx; cases hx), dids_cons_done_same]
    obtain ⟨h1, h2⟩ := ih
    simp at h1 h2
    simp [h1, h2]

theorem krun_nodup {k : Nat} {tr : List Ev} {p : List Nat} {c : Option Nat}
    (hrun : KRun k tr p c) : (eids k tr).Nodup := by
  induction hrun with
  | nil => simp [eids]
  | enqStart m tr h hm ih =>
    rw [eids_cons_other _ _ _ (by intro x hx; cases hx), eids_cons_enq_same]
    exact List.Nodup.cons hm ih
  | enqBusy m tr p c h hm ih =>
    rw [eids_cons_enq_same]
    exact List.Nodup.cons hm ih
  | finNext m tr p c h ih =>
    rw [eids_cons_other _ _ _ (by intro x hx; cases hx),
      eids_cons_other _ _ _ (by intro x hx; cases hx)]
    exact ih
  | finEmpty tr c h ih =>
    rw [eids_cons_other _ _ _ (by intro x hx; cases hx)]
    exact ih

theorem krun_sid_sub {k : Nat} {tr : List Ev} {p : List Nat} {c : Option Nat}
    (hrun : KRun k tr p c) {b : Nat} (hb : b ∈ sids k tr) : b ∈ eids k tr := by
  obtain ⟨h1, h2⟩ := krun_struct hrun
  rw [h1, List.append_assoc]
  rw [h2] at hb
  exact List.mem_append_right _ hb

theorem nodup_pair_mem_right {x a : Nat} {l₁ l₂ : List Nat}
    (hnd : (l₁ ++ x :: l₂).Nodup) (hsub : List.Sublist [x, a] (l₁ ++ x :: l₂)) : a ∈ l₂ := by
  induction l₁ with
  | nil =>
    rcases subl_cons_inv hsub with ⟨_, hrest⟩ | hsub2
    · exact List.singleton_sublist.mp hrest
    · have hx : x ∈ l₂ := hsub2.mem (List.mem_cons_self _ _)
      rw [List.nil_append, List.nodup_cons] at hnd
      exact absurd hx hnd.1
  | cons y l₁ ih =>
    rcases subl_cons_inv hsub with ⟨heq, _⟩ | hsub2
    · subst heq
      rw [List.cons_append, List.nodup_cons] at hnd
      exact absurd (List.mem_append_right _ (List.mem_cons_self _ _)) hnd.1
    · rw [List.cons_append, List.nodup_cons] at hnd
      exact ih hnd.2 hsub2

theorem krun_fifo {k : Nat} {tr : List Ev} {p : List Nat} {c : Option Nat}
    (hrun : KRun k tr p c) :
    ∀ a b : Nat, List.Sublist [Ev.enq k b, Ev.enq k a] tr → Ev.start k b ∈ tr →
      List.Sublist [Ev.start k b, Ev.done k a] tr := by
  induction hrun with
  | nil =>
    intro a b hab _
    rw [List.sublist_nil] at hab
    cases hab
  | enqStart m tr h hm ih =>
    intro a b hab hsb
    rcases subl_cons_inv hab with ⟨heq, _⟩ | hab1
    · exact Ev.noConfusion heq
    rcases subl_cons_inv hab1 with ⟨heq, hrest⟩ | hab2
    · injection heq with hk1 hb
      subst hb
      have ha : a ∈ eids k tr := (enq_mem_iff _ _ _).mp (List.singleton_sublist.mp hrest)
      obtain ⟨h1, _⟩ := krun_struct h
      simp only [List.reverse_nil, Option.toList_none, List.nil_append] at h1
      rw [h1] at ha
      have hda : Ev.done k a ∈ tr := (done_mem_iff _ _ _).mpr ha
      exact List.Sublist.cons₂ _ (List.Sublist.cons _ (List.singleton_sublist.mpr hda))
    · rcases List.mem_cons.mp hsb with he | hsb1
      · injection he with hk1 hb
        subst hb
        have hmem : Ev.enq k b ∈ tr := hab2.mem (List.mem_cons_self _ _)
        exact absurd ((enq_mem_iff _ _ _).mp hmem) hm
      · rcases List.mem_cons.mp hsb1 with he | hsb2
        · exact Ev.noConfusion he
        · exact List.Sublist.cons _ (List.Sublist.cons _ (ih a b hab2 hsb2))
  | enqBusy m tr p c h hm ih =>
    intro a b hab hsb
    rcases subl_cons_inv hab with ⟨heq, _⟩ | hab1
    · injection heq with hk1 hb
      subst hb
      rcases List.mem_cons.mp hsb with he | hsb1
      · exact Ev.noConfusion he
      · have hbin : b ∈ sids k tr := (start_mem_iff _ _ _).mp hsb1
        exact absurd (krun_sid_sub h hbin) hm
    · rcases List.mem_cons.mp hsb with he | hsb1
      · exact Ev.noConfusion he
      · exact List.Sublist.cons _ (ih a b hab1 hsb1)
  | finNext m tr p c h ih =>
    intro a b hab hsb
    rcases subl_cons_inv hab with ⟨heq, _⟩ | hab1
    · exact Ev.noConfusion heq
    rcases subl_cons_inv hab1 with ⟨heq, _⟩ | hab2
    · exact Ev.noConfusion heq
    rcases List.mem_cons.mp hsb with he | hsb1
    · injection he with hk1 hb
      subst hb
      refine List.Sublist.cons₂ _ ?_
      have hpair : List.Sublist [b, a] (eids k tr) := eids_pair_sublist hab2
      obtain ⟨h1, _⟩ := krun_struct h
      have h1' : eids k tr = p.reverse ++ b :: (c :: dids k tr) := by
        rw [h1]
        simp
      rw [h1'] at hpair
      have hnd := krun_nodup h
      rw [h1'] at hnd
      have ha := nodup_pair_mem_right hnd hpair
      rcases List.mem_cons.mp ha with hac | had
      · subst hac
        exact List.Sublist.cons₂ _ (List.nil_sublist _)
      · exact List.Sublist.cons _ (List.singleton_sublist.mpr ((done_mem_iff _ _ _).mpr had))
    · rcases List.mem_cons.mp hsb1 with he | hsb2
      · exact Ev.noConfusion he
      · exact List.Sublist.cons _ (List.Sublist.cons _ (ih a b hab2 hsb2))
  | finEmpty tr c h ih =>
    intro a b hab hsb
    rcases subl_cons_inv hab with ⟨heq, _⟩ | hab1
    · exact Ev.noConfusion heq
    rcases List.mem_cons.mp hsb with he | hsb1
    · exact Ev.noConfusion he
    · exact List.Sublist.cons _ (ih a b hab1 hsb1)

theorem reach_sysA : Reachable sysA :=
  Relation.ReflTransGen.single (Step.text init 0 5)

theorem reach_sysB : Reachable sysB :=
  Relation.ReflTransGen.tail reach_sysA (Step.varrive sysA 0 3)

theorem reach_sysC : Reachable sysC :=
  Relation.ReflTransGen.tail reach_sysA (Step.text sysA 0 7)

theorem reach_sysD : Reachable sysD :=
  Relation.ReflTransGen.tail reach_sysC (Step.errFinish sysC [] [] 0 0 5 4 (by decide))

example : sysA.threads = [Thr.drain 0 0 5] := by decide
example : sysA.queues 0 = some [] := by decide
example : sysA.locks 0 = some true := by decide
example : sysC.queues 0 = some [1] := by decide
example : sysD.trace =
    [Ev.start 0 1, Ev.done 0 0, Ev.errLog 0 0, Ev.enq 0 1, Ev.start 0 0, Ev.enq 0 0] := by
  decide
example : inProcCount 0 sysB = 2 := by decide

/-- C1 (counterexample): the claim fails as stated.  A text message of user 0
is inside its processing step (a drain thread is running its task) while a
voice note of the same user is simultaneously inside its own processing step:
the voice-note flow bypasses the per-user queue and lock entirely, so two
messages of the same user are concurrently inside processing. -/
theorem c1_two_in_flight : Reachable sysB ∧ inProcCount 0 sysB = 2 :=
  ⟨reach_sysB, by decide⟩

/-- C1 (amended): among queued (welcome-flow text) tasks the property holds —
for every user key, at every reachable instant at most one queued task is
inside its processing step; voice-note messages, which bypass the queue, are
not serialized against them. -/
theorem c1_queued_at_most_one_in_flight (s : Sys) (k : Nat) (hs : Reachable s) :
    (drainsFor k s.threads).length ≤ 1 :=
  ((reachable_inv hs).2 k).2.2

theorem c1_queued_at_most_one_in_flight_witness :
    Reachable sysA ∧ (drainsFor 0 sysA.threads).length ≤ 1 :=
  ⟨reach_sysA, c1_queued_at_most_one_in_flight sysA 0 reach_sysA⟩

/-- C2: FIFO per key — in every reachable state, for every pair of tasks of
the same user, if task `a` was enqueued before task `b` and `b`'s processing
has started, then `a`'s processing had already completed before `b`'s started
(traces list the most recent event first, so `List.Sublist [x, y] trace`
means `y` happened before `x`). -/
theorem c2_fifo_per_key (s : Sys) (k a b : Nat) (hs : Reachable s)
    (hab : List.Sublist [Ev.enq k b, Ev.enq k a] s.trace)
    (hsb : Ev.start k b ∈ s.trace) :
    List.Sublist [Ev.start k b, Ev.done k a] s.trace := by
  obtain ⟨hids, hkinv⟩ := reachable_inv hs
  have hrun : ∃ p c, KRun k (projK k s.trace) p c := by
    rcases drains_cases (hkinv k).2.2 with hd | ⟨c, n, hd⟩
    · exact ⟨[], none, ((hkinv k).1 hd).2.2⟩
    · obtain ⟨_, p, _, hr⟩ := (hkinv k).2.1 c n hd
      exact ⟨p, some c, hr⟩
  obtain ⟨p, c, hrun⟩ := hrun
  have hab' : List.Sublist [Ev.enq k b, Ev.enq k a] (projK k s.trace) := by
    have h2 := List.Sublist.filter (isQ k) hab
    simpa [isQ, projK] using h2
  have hsb' : Ev.start k b ∈ projK k s.trace :=
    List.mem_filter.mpr ⟨hsb, by simp [isQ]⟩
  exact (krun_fifo hrun a b hab' hsb').trans (List.filter_sublist _)

theorem c2_fifo_per_key_witness :
    Reachable sysD ∧ List.Sublist [Ev.enq 0 1, Ev.enq 0 0] sysD.trace ∧
    Ev.start 0 1 ∈ sysD.trace ∧ List.Sublist [Ev.start 0 1, Ev.done 0 0] sysD.trace :=
  ⟨reach_sysD, by decide, by decide,
    c2_fifo_per_key sysD 0 0 1 reach_sysD (by decide) (by decide)⟩

/-- C10: if the busy lock of a user is set at the moment `handleQueue` is
invoked, the invocation returns immediately: no task is removed from the
queue and the whole state — both maps included — is left unchanged. -/
theorem c10_locked_handleQueue_noop (s : Sys) (k steps : Nat)
    (h : s.locks k = some true) : handleQueueEnter s k steps = s := by
  unfold handleQueueEnter
  rw [if_pos h]

theorem c10_locked_handleQueue_noop_witness :
    sysA.locks 0 = some true ∧ handleQueueEnter sysA 0 9 = sysA :=
  ⟨by decide, c10_locked_handleQueue_noop sysA 0 9 (by decide)⟩

/-- C3: when processing a queued task fails, the drain loop catches the error
and logs it, the busy flag is released on that exit path (deleted if the
backlog is empty, re-taken for the next task otherwise), the loop proceeds to
the next queued task, every other user's state is untouched, and the failure
path performs exactly the same queue/lock/thread bookkeeping as the success
path — no error escapes the drain loop or prevents a later task from being
processed. -/
theorem c3_error_isolation (s : Sys) (pre post : List Thr) (k cur n st : Nat)
    (hs : Reachable s) (hth : s.threads = pre ++ Thr.drain k cur n :: post) :
    Step s (finishResult s pre post k cur true st) ∧
    Ev.errLog k cur ∈ (finishResult s pre post k cur true st).trace ∧
    (s.queues k = some [] →
      (finishResult s pre post k cur true st).locks k = none ∧
      (finishResult s pre post k cur true st).queues k = none ∧
      drainsFor k (finishResult s pre post k cur true st).threads = []) ∧
    (∀ m rest, s.queues k = some (m :: rest) →
      (finishResult s pre post k cur true st).locks k = some true ∧
      (finishResult s pre post k cur true st).queues k = some rest ∧
      drainsFor k (finishResult s pre post k cur true st).threads = [(m, st)] ∧
      Ev.start k m ∈ (finishResult s pre post k cur true st).trace) ∧
    (∀ k', k' ≠ k →
      (finishResult s pre post k cur true st).locks k' = s.locks k' ∧
      (finishResult s pre post k cur true st).queues k' = s.queues k' ∧
      drainsFor k' (finishResult s pre post k cur true st).threads =
        drainsFor k' s.threads) ∧
    (finishResult s pre post k cur true st).queues =
      (finishResult s pre post k cur false st).queues ∧
    (finishResult s pre post k cur true st).locks =
      (finishResult s pre post k cur false st).locks ∧
    (finishResult s pre post k cur true st).threads =
      (finishResult s pre post k cur false st).threads := by
  obtain ⟨hids, hkinv⟩ := reachable_inv hs
  obtain ⟨hall, hpre, hpost⟩ := drains_decomp hth (hkinv k).2.2
  obtain ⟨hlock, p, hqueue, hrun⟩ := (hkinv k).2.1 cur n hall
  have hq2 : ({ s with threads := pre ++ post } : Sys).queues k = some p := hqueue
  refine ⟨Step.errFinish s pre post k cur n st hth, ?_, ?_, ?_, ?_, ?_, ?_, ?_⟩
  · cases p with
    | nil =>
      rw [finishResult, drainContinue_empty cur true st hq2]
      simp
    | cons m restp =>
      rw [finishResult, drainContinue_next cur true st hq2]
      simp
  · intro hq
    rw [hqueue] at hq
    injection hq with hq
    subst hq
    rw [finishResult, drainContinue_empty cur true st hq2]
    refine ⟨mdel_same .., mdel_same .., ?_⟩
    dsimp only
    rw [drainsFor_append, hpre, hpost]
    rfl
  · intro m rest hq
    rw [hqueue] at hq
    injection hq with hq
    subst hq
    rw [finishResult, drainContinue_next cur true st hq2]
    refine ⟨mset_same .., mset_same .., ?_, ?_⟩
    · dsimp only
      rw [drainsFor_cons_drain_same, drainsFor_append, hpre, hpost]
      rfl
    · dsimp only
      exact List.mem_cons_self _ _
  · intro k' hk
    cases p with
    | nil =>
      rw [finishResult, drainContinue_empty cur true st hq2]
      refine ⟨mdel_other _ _ _ hk, mdel_other _ _ _ hk, ?_⟩
      dsimp only
      rw [hth, drainsFor_middle_drain_other _ _ _ _ _ _ (fun h => hk h.symm)]
    | cons m restp =>
      rw [finishResult, drainContinue_next cur true st hq2]
      refine ⟨mset_other _ _ _ _ hk, mset_other _ _ _ _ hk, ?_⟩
      dsimp only
      rw [hth, drainsFor_cons_drain_other _ _ _ _ _ (fun h => hk h.symm),
        drainsFor_middle_drain_other _ _ _ _ _ _ (fun h => hk h.symm)]
  · cases p with
    | nil =>
      rw [finishResult, finishResult, drainContinue_empty cur true st hq2,
        drainContinue_empty cur false st hq2]
    | cons m restp =>
      rw [finishResult, finishResult, drainContinue_next cur true st hq2,
        drainContinue_next cur false st hq2]
  · cases p with
    | nil =>
      rw [finishResult, finishResult, drainContinue_empty cur true st hq2,
        drainContinue_empty cur false st hq2]
    | cons m restp =>
      rw [finishResult, finishResult, drainContinue_next cur true st hq2,
        drainContinue_next cur false st hq2]
  · cases p with
    | nil =>
      rw [finishResult, finishResult, drainContinue_empty cur true st hq2,
        drainContinue_empty cur false st hq2]
    | cons m restp =>
      rw [finishResult, finishResult, drainContinue_next cur true st hq2,
        drainContinue_next cur false st hq2]

theorem c3_error_isolation_witness :
    Reachable sysA ∧ sysA.threads = [] ++ Thr.drain 0 0 5 :: [] ∧
    Ev.errLog 0 0 ∈ (finishResult sysA [] [] 0 0 true 4).trace ∧
    (finishResult sysA [] [] 0 0 true 4).locks 0 = none ∧
    (finishResult sysA [] [] 0 0 true 4).queues 0 = none :=
  ⟨reach_sysA, by decide,
    (c3_error_isolation sysA [] [] 0 0 5 4 reach_sysA (by decide)).2.1,
    ((c3_error_isolation sysA [] [] 0 0 5 4 reach_sysA (by decide)).2.2.1 (by decide)).1,
    ((c3_error_isolation sysA [] [] 0 0 5 4 reach_sysA (by decide)).2.2.1 (by decide)).2.1⟩

/-- C5: when a user's backlog reaches zero, the drain loop's exit removes the
queue entry and the busy-flag entry together, within the same synchronous
segment that observed emptiness; a subsequent submit for that user therefore
finds no entry and creates fresh state — a fresh (immediately drained) queue
holding only the new task, a fresh lock, and a fresh drain thread — instead
of reusing a stale queue object. -/
theorem c5_queue_lifecycle (s : Sys) (pre post : List Thr) (k cur n st st2 : Nat)
    (failed : Bool) (hs : Reachable s)
    (hth : s.threads = pre ++ Thr.drain k cur n :: post)
    (hq : s.queues k = some []) :
    (finishResult s pre post k cur failed st).queues k = none ∧
    (finishResult s pre post k cur failed st).locks k = none ∧
    drainsFor k (finishResult s pre post k cur failed st).threads = [] ∧
    (submitText (finishResult s pre post k cur failed st) k st2).queues k = some [] ∧
    (submitText (finishResult s pre post k cur failed st) k st2).locks k = some true ∧
    drainsFor k (submitText (finishResult s pre post k cur failed st) k st2).threads =
      [(s.nextId, st2)] := by
  obtain ⟨hids, hkinv⟩ := reachable_inv hs
  obtain ⟨hall, hpre, hpost⟩ := drains_decomp hth (hkinv k).2.2
  have hq2 : ({ s with threads := pre ++ post } : Sys).queues k = some [] := hq
  have key : ∀ t : Sys, t.locks k = none → t.queues k = none →
      (submitText t k st2).queues k = some [] ∧
      (submitText t k st2).locks k = some true ∧
      drainsFor k (submitText t k st2).threads =
        (t.nextId, st2) :: drainsFor k t.threads := by
    intro t hl hqt
    rw [submitText_idle st2 (by rw [hl]; simp) hqt]
    refine ⟨mset_same .., mset_same .., ?_⟩
    dsimp only
    rw [drainsFor_cons_drain_same]
  rw [finishResult, drainContinue_empty cur failed st hq2]
  refine ⟨mdel_same .., mdel_same .., ?_, ?_, ?_, ?_⟩
  · dsimp only
    rw [drainsFor_append, hpre, hpost]
    rfl
  · exact (key _ (mdel_same ..) (mdel_same ..)).1
  · exact (key _ (mdel_same ..) (mdel_same ..)).2.1
  · rw [(key _ (mdel_same ..) (mdel_same ..)).2.2]
    dsimp only
    rw [drainsFor_append, hpre, hpost]
    rfl

theorem c5_queue_lifecycle_witness :
    Reachable sysA ∧ sysA.queues 0 = some [] ∧
    (finishResult sysA [] [] 0 0 false 1).queues 0 = none ∧
    (finishResult sysA [] [] 0 0 false 1).locks 0 = none ∧
    (submitText (finishResult sysA [] [] 0 0 false 1) 0 2).queues 0 = some [] ∧
    drainsFor 0 (submitText (finishResult sysA [] [] 0 0 false 1) 0 2).threads =
      [(sysA.nextId, 2)] :=
  ⟨reach_sysA, by decide,
    (c5_queue_lifecycle sysA [] [] 0 0 5 1 2 false reach_sysA (by decide) (by decide)).1,
    (c5_queue_lifecycle sysA [] [] 0 0 5 1 2 false reach_sysA (by decide) (by decide)).2.1,
    (c5_queue_lifecycle sysA [] [] 0 0 5 1 2 false reach_sysA (by decide) (by decide)).2.2.2.1,
    (c5_queue_lifecycle sysA [] [] 0 0 5 1 2 false reach_sysA (by decide) (by decide)).2.2.2.2.2⟩

/-- C8: the transcribed-audio response is split into chunks exactly at
sentence boundaries — every separator consumed by the split is a period
followed by greedily-consumed whitespace whose period is not preceded by a
digit, the pieces and separators reassemble to the original response, and no
piece retains an unsplit boundary; in particular a period directly preceded
by a digit (a numeric decimal) is never a split point. -/
theorem c8_voice_split_exact (r : List Char) :
    voiceSplit r = (voiceSplitRun false r).1 ∧
    GoodSplit false (voiceSplitRun false r).1 (voiceSplitRun false r).2 ∧
    glue (voiceSplitRun false r).1 (voiceSplitRun false r).2 = r :=
  ⟨rfl, (voiceSplitRun_spec false r).1, (voiceSplitRun_spec false r).2⟩

/-- C4 (code bug): the text path's cleaning regex `/【.*?】[ ] /g` removes a
citation marker only when it is followed by two literal spaces, so a marker
like `【foo】` at the end of a chunk is delivered verbatim by the text path —
against the claim and the code's own stated intent to clean the chunk — while
the voice path's `/【.*?】/g` strips it. -/
theorem c4_marker_retained :
    textDelivered ("Hello【foo】".toList) = ["Hello【foo】".toList] ∧
    '【' ∈ "Hello【foo】".toList ∧
    voiceDelivered ("Hello【foo】".toList) = ["Hello".toList] := by
  refine ⟨?_, by decide, ?_⟩
  · simp [textDelivered, textClean, splitParas, consHead, trimChars, replaceTextMarks,
      matchTextMark, jsWS, isLineTerm]
  · simp [voiceDelivered, voiceClean, voiceSplit, voiceSplitRun, consHead, headWS, jsWS,
      trimChars, replaceVoiceMarks, matchVoiceMark, isLineTerm]

/-- C7 (counterexample): the claim fails — a response ending in a sentence
boundary produces an empty trailing split piece, and the voice path delivers
it as an empty chunk: for the response `"Hi. "` the delivered chunks are
`["Hi", ""]`. -/
theorem c7_empty_chunk_delivered :
    voiceDelivered ("Hi. ".toList) = ["Hi".toList, []] ∧
    [] ∈ voiceDelivered ("Hi. ".toList) := by
  have h : voiceDelivered ("Hi. ".toList) = ["Hi".toList, []] := by
    simp [voiceDelivered, voiceClean, voiceSplit, voiceSplitRun, consHead, headWS, jsWS,
      trimChars, replaceVoiceMarks, matchVoiceMark, isLineTerm]
  exact ⟨h, by rw [h]; simp⟩

/-- C7 (amended): chunks are delivered without any filtering, so a delivered
chunk can be empty; however every delivered chunk whose underlying split
piece contains a non-whitespace character and no marker-opening bracket `【`
is non-empty, in the text path and in the voice path alike. -/
theorem c7_nonempty_chunks (r piece : List Char) :
    (piece ∈ splitParas r → (∃ c ∈ piece, jsWS c = false) → '【' ∉ piece →
      textClean piece ∈ textDelivered r ∧ textClean piece ≠ []) ∧
    (piece ∈ voiceSplit r → (∃ c ∈ piece, jsWS c = false) → '【' ∉ piece →
      voiceClean piece ∈ voiceDelivered r ∧ voiceClean piece ≠ []) := by
  constructor
  · rintro hmem ⟨c, hc, hcw⟩ hno
    refine ⟨List.mem_map_of_mem _ hmem, ?_⟩
    unfold textClean
    rw [replaceTextMarks_no_open _ (fun hm => hno (mem_of_mem_trimChars hm))]
    exact List.ne_nil_of_mem (mem_trimChars hc hcw)
  · rintro hmem ⟨c, hc, hcw⟩ hno
    refine ⟨List.mem_map_of_mem _ hmem, ?_⟩
    unfold voiceClean
    rw [replaceVoiceMarks_no_open _ (fun hm => hno (mem_of_mem_trimChars hm))]
    exact List.ne_nil_of_mem (mem_trimChars hc hcw)

theorem c7_nonempty_chunks_witness :
    "Hi".toList ∈ voiceSplit ("Hi. ".toList) ∧ "Hi".toList ∈ splitParas ("Hi".toList) ∧
    (∃ c ∈ "Hi".toList, jsWS c = false) ∧ '【' ∉ "Hi".toList ∧
    voiceClean ("Hi".toList) ≠ [] ∧ textClean ("Hi".toList) ≠ [] := by
  have h1 : "Hi".toList ∈ voiceSplit ("Hi. ".toList) := by
    simp [voiceSplit, voiceSplitRun, consHead, headWS, jsWS]
  have h2 : "Hi".toList ∈ splitParas ("Hi".toList) := by
    simp [splitParas, consHead]
  refine ⟨h1, h2, ⟨'H', by decide, by decide⟩, by decide, ?_, ?_⟩
  · exact ((c7_nonempty_chunks ("Hi. ".toList) ("Hi".toList)).2 h1
      ⟨'H', by decide, by decide⟩ (by decide)).2
  · exact ((c7_nonempty_chunks ("Hi".toList) ("Hi".toList)).1 h2
      ⟨'H', by decide, by decide⟩ (by decide)).2

/-- C6 (counterexample): the claim fails — in a voice-note run the deletion of
the transcription's source file is invoked before the media attachment is
sent (line 107 runs inside the first action, the `addAnswer` with the media
comes after it), so it is not true that both deletions happen only after the
media attachment has been sent. -/
theorem c6_source_deleted_before_send :
    ¬ List.Sublist [VEv.sendMedia speechFile, VEv.unlinkCall lpSample]
        (voiceNoteTrace lpSample ("hi".toList) ("Ok".toList)) ∧
    VEv.unlinkCall lpSample ∈ voiceNoteTrace lpSample ("hi".toList) ("Ok".toList) ∧
    VEv.sendMedia speechFile ∈ voiceNoteTrace lpSample ("hi".toList) ("Ok".toList) := by
  have htr : voiceNoteTrace lpSample ("hi".toList) ("Ok".toList) =
      [VEv.saveFile lpSample, VEv.transcribe lpSample, VEv.typing, VEv.ask ("hi".toList),
       VEv.sendChunk ("Ok".toList), VEv.speechWrite speechFile ("Ok".toList),
       VEv.recording, VEv.unlinkCall lpSample, VEv.sendMedia speechFile,
       VEv.unlinkCall speechFile] := by
    simp [voiceNoteTrace, voiceDelivered, voiceClean, voiceSplit, voiceSplitRun, consHead,
      headWS, jsWS, trimChars, replaceVoiceMarks, matchVoiceMark, isLineTerm]
  rw [htr]
  exact ⟨by decide, by decide, by decide⟩

/-- C6 (amended): in every voice-note run the synthesized speech file is
deleted only after the media attachment has been sent, but the
transcription's source file is deleted before the media attachment is sent
(right after the recording presence signal), not after it. -/
theorem c6_media_and_deletions (lp tt r : List Char) :
    List.Sublist [VEv.unlinkCall lp, VEv.sendMedia speechFile] (voiceNoteTrace lp tt r) ∧
    List.Sublist [VEv.sendMedia speechFile, VEv.unlinkCall speechFile]
      (voiceNoteTrace lp tt r) := by
  unfold voiceNoteTrace
  constructor
  · refine List.Sublist.trans ?_ (List.sublist_append_right _ _)
    exact List.Sublist.cons _ (List.Sublist.cons _ (List.Sublist.cons₂ _
      (List.Sublist.cons₂ _ (List.nil_sublist _))))
  · refine List.Sublist.trans ?_ (List.sublist_append_right _ _)
    exact List.Sublist.cons _ (List.Sublist.cons _ (List.Sublist.cons _
      (List.Sublist.cons₂ _ (List.Sublist.cons₂ _ List.Sublist.slnil))))

theorem writePaths_append (a b : List VEv) :
    writePaths (a ++ b) = writePaths a ++ writePaths b := by
  simp [writePaths, List.filterMap_append]

theorem mediaPaths_append (a b : List VEv) :
    mediaPaths (a ++ b) = mediaPaths a ++ mediaPaths b := by
  simp [mediaPaths, List.filterMap_append]

theorem writePaths_chunks (l : List (List Char)) :
    writePaths (l.map VEv.sendChunk) = [] := by
  simp [writePaths]

theorem mediaPaths_chunks (l : List (List Char)) :
    mediaPaths (l.map VEv.sendChunk) = [] := by
  simp [mediaPaths]

/-- C9: in every run of the voice-note flow — whatever the saved file path,
transcription and response — the synthesized speech is written to exactly the
single fixed module-level path (`./assets/audio_bot/speech.mp3`) and the media
attachment is read from that same fixed path; neither depends on the task,
the user or the response content. -/
theorem c9_fixed_speech_path (lp tt r : List Char) :
    writePaths (voiceNoteTrace lp tt r) = [speechFile] ∧
    mediaPaths (voiceNoteTrace lp tt r) = [speechFile] := by
  constructor
  · rw [voiceNoteTrace, writePaths_append, writePaths_append, writePaths_chunks]
    simp [writePaths, List.filterMap_cons]
  · rw [voiceNoteTrace, mediaPaths_append, mediaPaths_append, mediaPaths_chunks]
    simp [mediaPaths, List.filterMap_cons]
